import Mathlib

/-!
# Colour wheel picking (`src/app/ui/color_wheel.cpp`)

Shallow embedding of `ColorWheel::pickColor` and of the pixel loop of
`ColorWheel::onPaint`.

Conventions of the embedding

* C++ `int` is 32 bits wide.  The fields of the widget and the coordinates of
  a position are `Int` values; the `int` arithmetic that `pickColor` performs
  on them (the offsets from the centre, `-v`, and `u*u + v*v`) is reduced to
  the 32-bit two's complement range by `wrapInt`, which is what the compiled
  code computes when the mathematical value does not fit.  The hue and
  saturation arithmetic works on values that the conversions `int(...)` keep
  far from the 32-bit bounds and is left as written.
* `/` and `%` on `int` truncate toward zero: `Int.tdiv`, `Int.tmod`.
* `double` values are read as the exact real numbers they approximate.  Each
  double expression of `pickColor` is consumed by an integer-valued
  operation (a comparison with an `int`, or the conversion `int(...)`), and
  the embedding gives that integer result:
  - `std::sqrt(n) < r` is `sqrtLt n r` (computed on integers; the square
    root of a negative `n` is a NaN and the comparison is false),
  - `int(120.0 * std::sqrt(n) / r)` is `satTrunc n r` (computed on integers),
  - `int(180.0 * std::atan2(y, x) / PI)` is the parameter `atanDeg y x`:
    `std::atan2` is a library function, so `pickColor` takes the truncated
    angle in degrees as a function argument, and `AtanDegSpec` links it to
    the real angle `Complex.arg (x + y i)`.
  The lemmas `sqrtLt_iff_real` and `satTrunc_eq_floor` relate the two integer
  models to the real-valued expressions of the source.
-/

namespace app

/-- Point of the `gfx` library: integer pixel coordinates. -/
structure Point where
  x : Int
  y : Int
deriving DecidableEq

/-- Rectangle of the `gfx` library: origin and size. -/
structure Rect where
  x : Int
  y : Int
  w : Int
  h : Int
deriving DecidableEq

/-- Modelled from the spec: the application colour type `app::Color`, whose
declaration is not part of the source file.  Only the two kinds of value that
`pickColor` builds are needed: the mask ("no colour") sentinel and an HSV
triple. -/
inductive Color where
  | mask : Color
  | hsv (hue sat value : Int) : Color
deriving DecidableEq

/-- Constructor `app::Color::fromMask()`. -/
def Color.fromMask : Color := Color.mask

/-- Constructor `app::Color::fromHsv(h, s, v)`. -/
def Color.fromHsv (h s v : Int) : Color := Color.hsv h s v

/-- Test `appColor.getType() == app::Color::MaskType`. -/
def Color.isMask : Color → Bool
  | Color.mask => true
  | Color.hsv _ _ _ => false

/-- Modelled from the spec: the clamp macro `MID(lo, x, hi)`, defined in a
header that is not part of the source file ("Clamp: hue ∈ [0,360],
sat ∈ [0,100]"). -/
def MID (lo x hi : Int) : Int := max lo (min x hi)

/-- The fields of the widget that `pickColor` and `onPaint` read. -/
structure ColorWheel where
  m_clientBounds : Rect
  m_wheelBounds : Rect
  m_wheelRadius : Int
  m_discrete : Bool
deriving DecidableEq

/-- The value of a 32-bit `int` expression whose mathematical value is `x`:
the representative of `x` modulo `2^32` in `[-2^31, 2^31)`. -/
def wrapInt (x : Int) : Int := (x + 2147483648) % 4294967296 - 2147483648

/-- The `int` expression `u*u + v*v`. -/
def sqDist (u v : Int) : Int := wrapInt (wrapInt (u * u) + wrapInt (v * v))

/-- Integer result of the comparison `std::sqrt(n) < r` for an `int` value
`n = u*u + v*v` and an `int` radius `r`.  For a negative `n` (an overflowed
sum) the square root is a NaN and the comparison is false. -/
def sqrtLt (n r : Int) : Bool := decide (0 ≤ n ∧ 0 < r ∧ n < r * r)

/-- Integer result of `int(120.0 * std::sqrt(n) / r)`: the truncation of
`120 * sqrt n / r`, which is `floor (floor (sqrt (14400 * n)) / r)`. -/
def satTrunc (n r : Int) : Int := Int.tdiv ((Nat.sqrt (14400 * n.toNat) : Nat) : Int) r

/-- Horizontal offset `u` of a position from the wheel centre. -/
def offsetU (cw : ColorWheel) (pos : Point) : Int :=
  wrapInt (pos.x - wrapInt (cw.m_wheelBounds.x + Int.tdiv cw.m_wheelBounds.w 2))

/-- Vertical offset `v` of a position from the wheel centre. -/
def offsetV (cw : ColorWheel) (pos : Point) : Int :=
  wrapInt (pos.y - wrapInt (cw.m_wheelBounds.y + Int.tdiv cw.m_wheelBounds.h 2))

/-- The discrete-mode hue quantizer: `hue += 15; hue /= 30; hue *= 30;`. -/
def quantizeHue (hue : Int) : Int := Int.tdiv (hue + 15) 30 * 30

/-- The discrete-mode saturation quantizer: `sat /= 20; sat *= 20;`. -/
def quantizeSat (sat : Int) : Int := Int.tdiv sat 20 * 20

/-- Method `ColorWheel::pickColor`.  The argument `atanDeg y x` stands for
`int(180.0 * std::atan2(y, x) / PI)`. -/
def pickColor (atanDeg : Int → Int → Int) (cw : ColorWheel) (pos : Point) : Color :=
  let u := offsetU cw pos
  let v := offsetV cw pos
  if sqrtLt (sqDist u v) cw.m_wheelRadius then
    let hue := atanDeg (wrapInt (-v)) u + 180 + 180 + 30
    let hue := if cw.m_discrete then quantizeHue hue else hue
    let hue := Int.tmod hue 360
    let sat := satTrunc (sqDist u v) cw.m_wheelRadius
    let sat := if cw.m_discrete then quantizeSat sat else sat
    Color.fromHsv (MID 0 hue 360) (MID 0 sat 100) 100
  else
    Color.fromMask

/-- A wheel of radius `r` whose centre is the origin: wheel bounds
`(-r, -r, 2r, 2r)`, as `onResize` builds them around the centre. -/
def centredWheel (r : Int) (discrete : Bool) : ColorWheel :=
  { m_clientBounds := ⟨-r, -r, 2 * r, 2 * r⟩
    m_wheelBounds := ⟨-r, -r, 2 * r, 2 * r⟩
    m_wheelRadius := r
    m_discrete := discrete }

/-- The same widget with the discrete flag set to `b` (`setDiscrete`). -/
def ColorWheel.withDiscrete (cw : ColorWheel) (b : Bool) : ColorWheel :=
  { cw with m_discrete := b }

/-- A call `g->putPixel(color, x, y)` on the graphics surface; `G` is the
display colour type `gfx::Color`. -/
structure PutPixel (G : Type) where
  color : G
  x : Int
  y : Int
deriving DecidableEq

/-- The loop `for (int i = start; i < hi; ++i) body(i)` on a state, started at
`i` with `fuel` iterations allowed. -/
def forLoop {σ : Type} (hi : Int) (body : Int → σ → σ) : Nat → Int → σ → σ
  | 0, _, s => s
  | fuel + 1, i, s => if i < hi then forLoop hi body fuel (i + 1) (body i s) else s

/-- The loop `for (int i = lo; i < hi; ++i) body(i)`: it runs `hi - lo` times
when `lo < hi` and not at all otherwise, which is the fuel given. -/
def forRange {σ : Type} (lo hi : Int) (body : Int → σ → σ) (s : σ) : σ :=
  forLoop hi body (hi - lo).toNat lo s

/-- The colour that `onPaint` writes for the application colour of a pixel:
`color_for_ui(appColor)` unless the type is `MaskType`, else the theme colour
`editorFace()`.  Both are external and passed as arguments. -/
def paintColor {G : Type} (colorForUi : Color → G) (editorFace : G) (appColor : Color) : G :=
  if appColor.isMask != true then colorForUi appColor else editorFace

/-- The pixel loops of `ColorWheel::onPaint`, as the list of `putPixel` calls
they issue, in order.  (The call `theme->drawRect` before the loops belongs to
the theme and is not modelled.) -/
def onPaint {G : Type} (atanDeg : Int → Int → Int) (colorForUi : Color → G) (editorFace : G)
    (cw : ColorWheel) : List (PutPixel G) :=
  let rc := cw.m_clientBounds
  forRange rc.y (rc.y + rc.h)
    (fun y g =>
      forRange rc.x (rc.x + rc.w)
        (fun x g =>
          let appColor := pickColor atanDeg cw ⟨x, y⟩
          g ++ [⟨paintColor colorForUi editorFace appColor, x, y⟩])
        g)
    []

/-- The value of the conversion `int(t)` of a real `t`: `k` is `t` rounded
toward zero. -/
def IsTruncOf (t : ℝ) (k : Int) : Prop :=
  (0 ≤ t ∧ (k : ℝ) ≤ t ∧ t < k + 1) ∨ (t < 0 ∧ (k : ℝ) - 1 < t ∧ t ≤ k)

/-- The parameter `atanDeg` agrees at `(y, x)` with the source expression
`int(180.0 * std::atan2(y, x) / PI)`, the angle `atan2(y, x)` being the
argument of the complex number `x + y i` (in `(-π, π]`, and 0 at the origin). -/
def AtanDegSpec (atanDeg : Int → Int → Int) (y x : Int) : Prop :=
  IsTruncOf (180 * Complex.arg ⟨(x : ℝ), (y : ℝ)⟩ / Real.pi) (atanDeg y x)

/-! ## Integer arithmetic of C++ `/` and `%` -/

theorem tdiv_eq_ite (a b : Int) (hb : 0 ≤ b) :
    a.tdiv b = if 0 ≤ a then a / b else -((-a) / b) := by
  split_ifs with h
  · exact Int.tdiv_eq_ediv h hb
  · have h1 : 0 ≤ -a := by omega
    rw [← Int.tdiv_eq_ediv h1 hb, Int.neg_tdiv, neg_neg]

theorem tmod_eq_ite (a b : Int) (hb : 0 ≤ b) :
    a.tmod b = if 0 ≤ a then a % b else -((-a) % b) := by
  rw [Int.tmod_def, tdiv_eq_ite a b hb]
  split_ifs with h
  · rw [Int.emod_def]
  · rw [Int.emod_def]; ring

theorem natSqrt_eq (n q : Nat) (h1 : q * q ≤ n) (h2 : n < (q + 1) * (q + 1)) :
    Nat.sqrt n = q :=
  (Nat.eq_sqrt.mpr ⟨h1, h2⟩).symm

theorem MID_eq (lo x hi : Int) (h : lo ≤ hi) :
    MID lo x hi = if x < lo then lo else if hi < x then hi else x := by
  unfold MID
  split_ifs <;> omega

/-! ## The two branches of `pickColor` -/

theorem sqrtLt_eq_true_iff (n r : Int) :
    sqrtLt n r = true ↔ 0 ≤ n ∧ 0 < r ∧ n < r * r := by
  simp [sqrtLt]

theorem pickColor_outside (atanDeg : Int → Int → Int) (cw : ColorWheel) (pos : Point)
    (h : sqrtLt (sqDist (offsetU cw pos) (offsetV cw pos)) cw.m_wheelRadius = false) :
    pickColor atanDeg cw pos = Color.mask := by
  simp [pickColor, h, Color.fromMask]

theorem pickColor_inside (atanDeg : Int → Int → Int) (cw : ColorWheel) (pos : Point)
    (h : sqrtLt (sqDist (offsetU cw pos) (offsetV cw pos)) cw.m_wheelRadius = true) :
    pickColor atanDeg cw pos =
      Color.hsv
        (MID 0 (Int.tmod (if cw.m_discrete
            then quantizeHue
              (atanDeg (wrapInt (-offsetV cw pos)) (offsetU cw pos) + 180 + 180 + 30)
            else atanDeg (wrapInt (-offsetV cw pos)) (offsetU cw pos) + 180 + 180 + 30) 360)
          360)
        (MID 0 (if cw.m_discrete
            then quantizeSat (satTrunc (sqDist (offsetU cw pos) (offsetV cw pos))
              cw.m_wheelRadius)
            else satTrunc (sqDist (offsetU cw pos) (offsetV cw pos)) cw.m_wheelRadius) 100)
        100 := by
  simp [pickColor, h, Color.fromHsv]

theorem sqrtLt_of_sq_lt (n r : Int) (hn : 0 ≤ n) (hr : 0 < r) (h : n < r ^ 2) :
    sqrtLt n r = true := by
  rw [sqrtLt_eq_true_iff]
  exact ⟨hn, hr, by nlinarith⟩

theorem sqrtLt_of_sq_ge (n r : Int) (h : r ^ 2 ≤ n) : sqrtLt n r = false := by
  have : ¬ (sqrtLt n r = true) := by
    rw [sqrtLt_eq_true_iff]
    rintro ⟨_, _, h2⟩
    nlinarith
  simpa using this

/-! ## 32-bit arithmetic without overflow -/

theorem wrapInt_of_range (x : Int) (h1 : -2147483648 ≤ x) (h2 : x < 2147483648) :
    wrapInt x = x := by
  unfold wrapInt
  omega

theorem wrapInt_range (x : Int) : -2147483648 ≤ wrapInt x ∧ wrapInt x < 2147483648 := by
  unfold wrapInt
  omega

/-- Offsets whose squares sum to less than `2^31` are below 46341 in absolute
value. -/
theorem abs_lt_of_sq_sum_lt (u v : Int) (h : u ^ 2 + v ^ 2 < 2 ^ 31) :
    (-46341 < u ∧ u < 46341) ∧ (-46341 < v ∧ v < 46341) := by
  have hu := sq_nonneg u
  have hv := sq_nonneg v
  refine ⟨⟨?_, ?_⟩, ⟨?_, ?_⟩⟩ <;> nlinarith

/-- When `u^2 + v^2 < 2^31` the `int` expression `u*u + v*v` does not overflow. -/
theorem sqDist_eq (u v : Int) (h : u ^ 2 + v ^ 2 < 2 ^ 31) : sqDist u v = u ^ 2 + v ^ 2 := by
  have hu : 0 ≤ u * u := mul_self_nonneg u
  have hv : 0 ≤ v * v := mul_self_nonneg v
  have e : u ^ 2 + v ^ 2 = u * u + v * v := by ring
  rw [e] at h ⊢
  have h31 : (2 : Int) ^ 31 = 2147483648 := by norm_num
  rw [h31] at h
  unfold sqDist
  rw [wrapInt_of_range (u * u) (by omega) (by omega),
    wrapInt_of_range (v * v) (by omega) (by omega),
    wrapInt_of_range (u * u + v * v) (by omega) (by omega)]

theorem wrapInt_neg_eq (u v : Int) (h : u ^ 2 + v ^ 2 < 2 ^ 31) : wrapInt (-v) = -v := by
  obtain ⟨_, hv1, hv2⟩ := abs_lt_of_sq_sum_lt u v h
  exact wrapInt_of_range _ (by omega) (by omega)

/-- The hue that leaves `pickColor` is in `[0, 360)`, whatever the integer
before the reduction. -/
theorem hue_clamp_range (t : Int) : 0 ≤ MID 0 (Int.tmod t 360) 360 ∧ MID 0 (Int.tmod t 360) 360 < 360 := by
  rw [MID_eq _ _ _ (by norm_num), tmod_eq_ite _ _ (by norm_num)]
  split_ifs <;> omega

theorem sat_clamp_range (s : Int) : 0 ≤ MID 0 s 100 ∧ MID 0 s 100 ≤ 100 := by
  rw [MID_eq _ _ _ (by norm_num)]
  split_ifs <;> omega

/-- Quantizing the hue before the reduction modulo 360 and the clamp agrees
with quantizing the reduced, clamped hue and reducing again. -/
theorem hue_quantize_commute (t : Int) :
    MID 0 (Int.tmod (quantizeHue t) 360) 360 =
      Int.tmod (quantizeHue (MID 0 (Int.tmod t 360) 360)) 360 := by
  unfold quantizeHue MID
  have hA := tdiv_eq_ite (t + 15) 30 (by norm_num)
  generalize (t + 15).tdiv 30 = A at hA ⊢
  have hB := tmod_eq_ite (A * 30) 360 (by norm_num)
  generalize (A * 30).tmod 360 = B at hB ⊢
  have hC := tmod_eq_ite t 360 (by norm_num)
  generalize t.tmod 360 = C at hC ⊢
  have hD := tdiv_eq_ite (max 0 (min C 360) + 15) 30 (by norm_num)
  generalize (max 0 (min C 360) + 15).tdiv 30 = D at hD ⊢
  have hE := tmod_eq_ite (D * 30) 360 (by norm_num)
  generalize (D * 30).tmod 360 = E at hE ⊢
  split_ifs at hA hB hC hD hE <;> omega

/-- Quantizing the saturation before the clamp agrees with quantizing the
clamped saturation. -/
theorem sat_quantize_commute (s : Int) :
    MID 0 (quantizeSat s) 100 = quantizeSat (MID 0 s 100) := by
  unfold quantizeSat
  simp only [MID_eq _ _ _ (show (0 : Int) ≤ 100 by norm_num),
    tdiv_eq_ite _ _ (show (0 : Int) ≤ 20 by norm_num)]
  split_ifs <;> omega

/-- Offsets in a wheel centred on the origin are the coordinates. -/
theorem offsetU_centred (r : Int) (d : Bool) (p : Point) (h : wrapInt p.x = p.x) :
    offsetU (centredWheel r d) p = p.x := by
  have h0 : wrapInt 0 = 0 := by decide
  simp [offsetU, centredWheel, Int.mul_tdiv_cancel_left, h0, h]

theorem offsetV_centred (r : Int) (d : Bool) (p : Point) (h : wrapInt p.y = p.y) :
    offsetV (centredWheel r d) p = p.y := by
  have h0 : wrapInt 0 = 0 := by decide
  simp [offsetV, centredWheel, Int.mul_tdiv_cancel_left, h0, h]

/-- Evaluation of `satTrunc` from the two inequalities that pin down an
integer square root and a quotient. -/
theorem satTrunc_eval (n r : Int) (q s : Nat) (hn : 0 ≤ n) (hr : 0 < r)
    (h1 : (q : Int) * q ≤ 14400 * n) (h2 : 14400 * n < ((q : Int) + 1) * (q + 1))
    (h3 : (s : Int) * r ≤ q) (h4 : (q : Int) < (s + 1) * r) :
    satTrunc n r = s := by
  obtain ⟨m, rfl⟩ := Int.eq_ofNat_of_zero_le hn
  have hq : Nat.sqrt (14400 * m) = q := by
    apply natSqrt_eq
    · exact_mod_cast h1
    · exact_mod_cast h2
  unfold satTrunc
  rw [Int.toNat_ofNat, hq, Int.tdiv_eq_ediv (Int.ofNat_nonneg _) hr.le]
  apply le_antisymm
  · have := (Int.ediv_lt_iff_lt_mul (a := (q : Int)) (b := (s : Int) + 1) hr).mpr h4
    omega
  · exact (Int.le_ediv_iff_mul_le hr).mpr h3

/-- The colour branch of `pickColor` in a wheel centred on the origin, for
coordinates in the 32-bit range. -/
theorem pickColor_centred (atanDeg : Int → Int → Int) (r : Int) (d : Bool) (u v : Int)
    (hu : wrapInt u = u) (hv : wrapInt v = v) (h : sqrtLt (sqDist u v) r = true) :
    pickColor atanDeg (centredWheel r d) ⟨u, v⟩ =
      Color.hsv
        (MID 0 (Int.tmod (if d then quantizeHue (atanDeg (wrapInt (-v)) u + 180 + 180 + 30)
            else atanDeg (wrapInt (-v)) u + 180 + 180 + 30) 360) 360)
        (MID 0 (if d then quantizeSat (satTrunc (sqDist u v) r)
            else satTrunc (sqDist u v) r) 100)
        100 := by
  have hu1 := offsetU_centred r d ⟨u, v⟩ hu
  have hv1 := offsetV_centred r d ⟨u, v⟩ hv
  rw [pickColor_inside, hu1, hv1]
  · rfl
  · rw [hu1, hv1]; exact h

/-- The mask branch of `pickColor` in a wheel centred on the origin. -/
theorem pickColor_centred_mask (atanDeg : Int → Int → Int) (r : Int) (d : Bool) (u v : Int)
    (hu : wrapInt u = u) (hv : wrapInt v = v) (h : sqrtLt (sqDist u v) r = false) :
    pickColor atanDeg (centredWheel r d) ⟨u, v⟩ = Color.mask := by
  apply pickColor_outside
  rw [offsetU_centred r d ⟨u, v⟩ hu, offsetV_centred r d ⟨u, v⟩ hv]
  exact h

/-- A wheel that is not centred on the origin: wheel bounds `(15, 5, 77, 77)`
and radius 38 put the centre at `(15 + 77/2, 5 + 77/2) = (53, 43)`; the
position `(57, 40)` has offset `(4, -3)`, distance 5, and saturation
`int(120 * 5 / 38) = 15`. -/
theorem pickColor_offcentre_example :
    offsetU ⟨⟨0, 0, 110, 90⟩, ⟨15, 5, 77, 77⟩, 38, false⟩ ⟨57, 40⟩ = 4 ∧
    offsetV ⟨⟨0, 0, 110, 90⟩, ⟨15, 5, 77, 77⟩, 38, false⟩ ⟨57, 40⟩ = -3 ∧
    pickColor (fun _ _ => 36) ⟨⟨0, 0, 110, 90⟩, ⟨15, 5, 77, 77⟩, 38, false⟩ ⟨57, 40⟩ =
      Color.hsv 66 15 100 := by
  have hn : sqDist (offsetU ⟨⟨0, 0, 110, 90⟩, ⟨15, 5, 77, 77⟩, 38, false⟩ ⟨57, 40⟩)
      (offsetV ⟨⟨0, 0, 110, 90⟩, ⟨15, 5, 77, 77⟩, 38, false⟩ ⟨57, 40⟩) = 25 := by decide
  have hs : satTrunc 25 38 = (15 : Nat) :=
    satTrunc_eval _ _ 600 15 (by decide) (by decide) (by decide) (by decide) (by decide)
      (by decide)
  refine ⟨by decide, by decide, ?_⟩
  rw [pickColor_inside _ _ _ (by decide), hn, hs]
  decide

/-! ## Claims on the integer part of `pickColor` -/

/-- The pixel at offset `(46341, 0)` in a wheel of radius 46342 is strictly
inside the disk, but `u*u = 2147488281` does not fit in an `int`: the sum is
negative, its square root is a NaN, and `pickColor` returns the mask. -/
theorem pickColor_overflow_inside (atanDeg : Int → Int → Int) (d : Bool) :
    pickColor atanDeg (centredWheel 46342 d) ⟨46341, 0⟩ = Color.mask :=
  pickColor_centred_mask atanDeg 46342 d 46341 0 (by decide) (by decide) (by decide)

/-- C1 (refuted as stated): at radius 100 the pixel at offset `(65536, 3)` is
far outside the disk, but the `int` product `u*u = 2^32` wraps to 0, so
`u*u + v*v` is 9, `sqrt 9 = 3 < 100` and `pickColor` returns the colour
`(30, 3, 100)` instead of the mask. -/
theorem pickColor_outside_overflow_counterexample :
    (0 : Int) ≤ (centredWheel 100 false).m_wheelRadius ∧
    (centredWheel 100 false).m_wheelRadius ^ 2 ≤
      offsetU (centredWheel 100 false) ⟨65536, 3⟩ ^ 2 +
        offsetV (centredWheel 100 false) ⟨65536, 3⟩ ^ 2 ∧
    pickColor (fun _ _ => 0) (centredWheel 100 false) ⟨65536, 3⟩ = Color.hsv 30 3 100 ∧
    ¬ ∃ atanDeg : Int → Int → Int,
      pickColor atanDeg (centredWheel 100 false) ⟨65536, 3⟩ = Color.mask := by
  have hn : sqDist 65536 3 = 9 := by decide
  have hs : satTrunc 9 100 = (3 : Nat) :=
    satTrunc_eval _ _ 360 3 (by decide) (by decide) (by decide) (by decide) (by decide)
      (by decide)
  have hc : ∀ atanDeg : Int → Int → Int,
      pickColor atanDeg (centredWheel 100 false) ⟨65536, 3⟩ =
        Color.hsv (MID 0 (Int.tmod (atanDeg (wrapInt (-3)) 65536 + 180 + 180 + 30) 360) 360)
          (MID 0 3 100) 100 := by
    intro atanDeg
    rw [pickColor_centred _ _ _ _ _ (by decide) (by decide) (by decide), hn, hs]
    rfl
  refine ⟨by decide, by decide, ?_, ?_⟩
  · rw [hc]
    decide
  · rintro ⟨atanDeg, h⟩
    rw [hc] at h
    cases h

/-- C1 (amended): for a pixel whose offset `(u, v)` from the wheel centre has
`u^2 + v^2 >= radius^2` and `u^2 + v^2 < 2^31` (so that `u*u + v*v` fits in an
`int`), `pickColor` returns the mask (NoColor) sentinel, whatever the radius
and the discrete flag: the disk is open and, for radius 0, empty. -/
theorem pickColor_mask_outside_disk (atanDeg : Int → Int → Int) (cw : ColorWheel)
    (pos : Point)
    (hno : offsetU cw pos ^ 2 + offsetV cw pos ^ 2 < 2 ^ 31)
    (hout : cw.m_wheelRadius ^ 2 ≤ offsetU cw pos ^ 2 + offsetV cw pos ^ 2) :
    pickColor atanDeg cw pos = Color.mask := by
  apply pickColor_outside
  apply sqrtLt_of_sq_ge
  rw [sqDist_eq _ _ hno]
  exact hout

/-- C1 (amended), at the inputs named in the claim: radius 50 and offset
`(50, 0)` (a pixel on the circle), in continuous mode. -/
theorem pickColor_mask_outside_disk_witness :
    offsetU (centredWheel 50 false) ⟨50, 0⟩ ^ 2 + offsetV (centredWheel 50 false) ⟨50, 0⟩ ^ 2 <
      2 ^ 31 ∧
    (centredWheel 50 false).m_wheelRadius ^ 2 ≤
      offsetU (centredWheel 50 false) ⟨50, 0⟩ ^ 2 + offsetV (centredWheel 50 false) ⟨50, 0⟩ ^ 2 ∧
    pickColor (fun _ _ => 0) (centredWheel 50 false) ⟨50, 0⟩ = Color.mask :=
  ⟨by decide, by decide,
    pickColor_mask_outside_disk (fun _ _ => 0) (centredWheel 50 false) ⟨50, 0⟩ (by decide)
      (by decide)⟩

/-- C2 (refuted as stated): at radius 46342 the pixel at offset `(46341, 0)`
is strictly inside the disk, but `u*u` overflows the `int` range and
`pickColor` returns the mask, not a colour. -/
theorem pickColor_inside_overflow_counterexample :
    0 < (centredWheel 46342 false).m_wheelRadius ∧
    offsetU (centredWheel 46342 false) ⟨46341, 0⟩ ^ 2 +
        offsetV (centredWheel 46342 false) ⟨46341, 0⟩ ^ 2 <
      (centredWheel 46342 false).m_wheelRadius ^ 2 ∧
    pickColor (fun _ _ => 0) (centredWheel 46342 false) ⟨46341, 0⟩ = Color.mask ∧
    pickColor (fun _ _ => 0) (centredWheel 46342 true) ⟨46341, 0⟩ = Color.mask :=
  ⟨by decide, by decide, pickColor_overflow_inside _ false, pickColor_overflow_inside _ true⟩

/-- The disk test succeeds for a pixel strictly inside the disk whose squared
distance fits in an `int`. -/
theorem sqrtLt_inside (cw : ColorWheel) (pos : Point) (hr : 0 < cw.m_wheelRadius)
    (hno : offsetU cw pos ^ 2 + offsetV cw pos ^ 2 < 2 ^ 31)
    (hin : offsetU cw pos ^ 2 + offsetV cw pos ^ 2 < cw.m_wheelRadius ^ 2) :
    sqrtLt (sqDist (offsetU cw pos) (offsetV cw pos)) cw.m_wheelRadius = true := by
  rw [sqDist_eq _ _ hno]
  exact sqrtLt_of_sq_lt _ _ (by positivity) hr hin

/-- C2 (amended): for a radius `> 0` and a pixel strictly inside the disk
(`u^2 + v^2 < radius^2`) with `u^2 + v^2 < 2^31` (no `int` overflow in
`u*u + v*v`), with either value of the discrete flag, `pickColor` returns an
HSV colour with hue in `[0, 360)`, saturation in `[0, 100]` and value 100. -/
theorem pickColor_hsv_inside_disk (atanDeg : Int → Int → Int) (cw : ColorWheel)
    (pos : Point) (hr : 0 < cw.m_wheelRadius)
    (hno : offsetU cw pos ^ 2 + offsetV cw pos ^ 2 < 2 ^ 31)
    (hin : offsetU cw pos ^ 2 + offsetV cw pos ^ 2 < cw.m_wheelRadius ^ 2) :
    ∃ h s : Int, pickColor atanDeg cw pos = Color.hsv h s 100 ∧
      0 ≤ h ∧ h < 360 ∧ 0 ≤ s ∧ s ≤ 100 := by
  rw [pickColor_inside atanDeg cw pos (sqrtLt_inside cw pos hr hno hin)]
  exact ⟨_, _, rfl, (hue_clamp_range _).1, (hue_clamp_range _).2,
    (sat_clamp_range _).1, (sat_clamp_range _).2⟩

/-- C2 (amended) at radius 51 and offset `(30, -40)`, discrete mode on. -/
theorem pickColor_hsv_inside_disk_witness :
    0 < (centredWheel 51 true).m_wheelRadius ∧
    offsetU (centredWheel 51 true) ⟨30, -40⟩ ^ 2 + offsetV (centredWheel 51 true) ⟨30, -40⟩ ^ 2 <
      2 ^ 31 ∧
    offsetU (centredWheel 51 true) ⟨30, -40⟩ ^ 2 + offsetV (centredWheel 51 true) ⟨30, -40⟩ ^ 2 <
      (centredWheel 51 true).m_wheelRadius ^ 2 ∧
    ∃ h s : Int, pickColor (fun _ _ => 53) (centredWheel 51 true) ⟨30, -40⟩ = Color.hsv h s 100 ∧
      0 ≤ h ∧ h < 360 ∧ 0 ≤ s ∧ s ≤ 100 :=
  ⟨by decide, by decide, by decide,
    pickColor_hsv_inside_disk (fun _ _ => 53) (centredWheel 51 true) ⟨30, -40⟩
      (by decide) (by decide) (by decide)⟩

/-- C5: every colour that `pickColor` returns in discrete mode has a hue that
is a multiple of 30 and a saturation that is a multiple of 20 (the final
values, after the reduction modulo 360 and the clamps). -/
theorem pickColor_discrete_multiples (atanDeg : Int → Int → Int) (cw : ColorWheel)
    (pos : Point) (h s v : Int) (hd : cw.m_discrete = true)
    (hc : pickColor atanDeg cw pos = Color.hsv h s v) :
    30 ∣ h ∧ 20 ∣ s := by
  by_cases hlt : sqrtLt (sqDist (offsetU cw pos) (offsetV cw pos)) cw.m_wheelRadius = true
  · rw [pickColor_inside atanDeg cw pos hlt, hd] at hc
    simp only [if_true] at hc
    injection hc with h1 h2 h3
    subst h1 h2
    constructor
    · unfold quantizeHue
      rw [MID_eq _ _ _ (by norm_num), tmod_eq_ite _ _ (by norm_num),
        tdiv_eq_ite _ _ (by norm_num)]
      split_ifs <;> omega
    · unfold quantizeSat
      rw [MID_eq _ _ _ (by norm_num), tdiv_eq_ite _ _ (by norm_num)]
      split_ifs <;> omega
  · have hf : sqrtLt (sqDist (offsetU cw pos) (offsetV cw pos)) cw.m_wheelRadius = false := by
      simpa using hlt
    rw [pickColor_outside atanDeg cw pos hf] at hc
    cases hc

/-- C5 at radius 100, offset `(30, -40)`, with truncated angle 53 degrees:
the colour is `(90, 60, 100)`. -/
theorem pickColor_discrete_multiples_witness :
    pickColor (fun _ _ => 53) (centredWheel 100 true) ⟨30, -40⟩ = Color.hsv 90 60 100 ∧
    (30 : Int) ∣ 90 ∧ (20 : Int) ∣ 60 :=
  have hn : sqDist 30 (-40) = 2500 := by decide
  have hs : satTrunc 2500 100 = (60 : Nat) :=
    satTrunc_eval _ _ 6000 60 (by decide) (by decide) (by decide) (by decide) (by decide)
      (by decide)
  have hc : pickColor (fun _ _ => 53) (centredWheel 100 true) ⟨30, -40⟩ = Color.hsv 90 60 100 := by
    rw [pickColor_centred _ _ _ _ _ (by decide) (by decide) (by decide), hn, hs]
    decide
  ⟨hc,
    pickColor_discrete_multiples (fun _ _ => 53) (centredWheel 100 true) ⟨30, -40⟩ 90 60 100
      rfl hc⟩

/-- C9: both discrete-mode quantizers are idempotent on the non-negative
integers: `qh (qh h) = qh h` for `qh h = ((h + 15) / 30) * 30` and
`qs (qs s) = qs s` for `qs s = (s / 20) * 20`, with truncating division. -/
theorem quantizers_idempotent (h s : Int) (hh : 0 ≤ h) (hs : 0 ≤ s) :
    quantizeHue (quantizeHue h) = quantizeHue h ∧
    quantizeSat (quantizeSat s) = quantizeSat s := by
  unfold quantizeHue quantizeSat
  constructor
  · rw [tdiv_eq_ite (h + 15) 30 (by norm_num), tdiv_eq_ite _ 30 (by norm_num)]
    split_ifs <;> omega
  · rw [tdiv_eq_ite s 20 (by norm_num), tdiv_eq_ite _ 20 (by norm_num)]
    split_ifs <;> omega

/-- C9 at hue 476 (quantized to 480) and saturation 117 (quantized to 100). -/
theorem quantizers_idempotent_witness :
    quantizeHue 476 = 480 ∧ quantizeSat 117 = 100 ∧
    quantizeHue (quantizeHue 476) = quantizeHue 476 ∧
    quantizeSat (quantizeSat 117) = quantizeSat 117 :=
  ⟨by decide, by decide, quantizers_idempotent 476 117 (by decide) (by decide)⟩

/-- C10: discrete mode is the quantization of continuous mode.  For every
widget and pixel, `pickColor` with the flag on returns the mask exactly when
it does with the flag off; and when the flag-off colour is `(h, s, v)` then
`v = 100` and the flag-on colour is
`((((h + 15) / 30) * 30) mod 360, (s / 20) * 20, 100)`, with the truncating
division and remainder of C++. -/
theorem pickColor_discrete_eq_quantized (atanDeg : Int → Int → Int) (cw : ColorWheel)
    (pos : Point) :
    (pickColor atanDeg (cw.withDiscrete true) pos = Color.mask ↔
      pickColor atanDeg (cw.withDiscrete false) pos = Color.mask) ∧
    ∀ h s v : Int, pickColor atanDeg (cw.withDiscrete false) pos = Color.hsv h s v →
      v = 100 ∧
      pickColor atanDeg (cw.withDiscrete true) pos =
        Color.hsv (Int.tmod (Int.tdiv (h + 15) 30 * 30) 360) (Int.tdiv s 20 * 20) 100 := by
  by_cases hlt : sqrtLt (sqDist (offsetU cw pos) (offsetV cw pos)) cw.m_wheelRadius = true
  · have h1 := pickColor_inside atanDeg (cw.withDiscrete true) pos hlt
    have h0 := pickColor_inside atanDeg (cw.withDiscrete false) pos hlt
    simp only [ColorWheel.withDiscrete, if_true] at h1
    simp only [ColorWheel.withDiscrete, Bool.false_eq_true, if_false] at h0
    change pickColor atanDeg (cw.withDiscrete true) pos = _ at h1
    change pickColor atanDeg (cw.withDiscrete false) pos = _ at h0
    rw [h1, h0]
    refine ⟨by simp, ?_⟩
    intro h s v hc
    injection hc with e1 e2 e3
    subst e1 e2 e3
    refine ⟨rfl, ?_⟩
    congr 1
    · exact hue_quantize_commute _
    · exact sat_quantize_commute _
  · have hf : sqrtLt (sqDist (offsetU cw pos) (offsetV cw pos)) cw.m_wheelRadius = false := by
      simpa using hlt
    have h1 := pickColor_outside atanDeg (cw.withDiscrete true) pos hf
    have h0 := pickColor_outside atanDeg (cw.withDiscrete false) pos hf
    rw [h1, h0]
    refine ⟨Iff.rfl, ?_⟩
    intro h s v hc
    cases hc

/-! ## The pixel loop of `onPaint` -/

/-- The loop run on a client rectangle of two pixels at `(3, 7)` and `(4, 7)`
with an empty disk (radius 0): both pixels get the face colour, in order. -/
theorem onPaint_two_pixels :
    onPaint (fun _ _ => 0) (fun _ => (1 : Nat)) 0
        { m_clientBounds := ⟨3, 7, 2, 1⟩, m_wheelBounds := ⟨4, 7, 0, 0⟩, m_wheelRadius := 0,
          m_discrete := false } =
      [⟨0, 3, 7⟩, ⟨0, 4, 7⟩] := by
  decide

/-! ## The integer models against the real-valued source expressions -/

/-- The integer test `sqrtLt` decides the comparison of the source,
`sqrt n < r`, for a non-negative `n`. -/
theorem sqrtLt_iff_real (n r : Int) (hn : 0 ≤ n) :
    sqrtLt n r = true ↔ Real.sqrt (n : ℝ) < (r : ℝ) := by
  rw [sqrtLt_eq_true_iff]
  constructor
  · rintro ⟨_, hr, h⟩
    have hr' : (0 : ℝ) < (r : ℝ) := by exact_mod_cast hr
    rw [Real.sqrt_lt' hr']
    have : ((n : Int) : ℝ) < ((r * r : Int) : ℝ) := by exact_mod_cast h
    push_cast at this
    nlinarith
  · intro h
    have h0 : (0 : ℝ) ≤ Real.sqrt (n : ℝ) := Real.sqrt_nonneg _
    have hr' : (0 : ℝ) < (r : ℝ) := lt_of_le_of_lt h0 h
    rw [Real.sqrt_lt' hr'] at h
    refine ⟨hn, by exact_mod_cast hr', ?_⟩
    have : ((n : Int) : ℝ) < ((r * r : Int) : ℝ) := by
      push_cast
      nlinarith
    exact_mod_cast this

/-- For a negative `n` (the square root is a NaN) the test fails. -/
theorem sqrtLt_of_neg (n r : Int) (hn : n < 0) : sqrtLt n r = false := by
  have : ¬ (sqrtLt n r = true) := by
    rw [sqrtLt_eq_true_iff]
    omega
  simpa using this

/-- The integer `satTrunc n r` is the truncation of the real number
`120 * sqrt n / r` of the source (a non-negative number, so its floor). -/
theorem satTrunc_eq_floor (n r : Int) (hn : 0 ≤ n) (hr : 0 < r) :
    satTrunc n r = ⌊120 * Real.sqrt (n : ℝ) / (r : ℝ)⌋ := by
  obtain ⟨m, rfl⟩ := Int.eq_ofNat_of_zero_le hn
  have hr' : (0 : ℝ) < (r : ℝ) := by exact_mod_cast hr
  unfold satTrunc
  rw [Int.toNat_ofNat, Int.tdiv_eq_ediv (Int.ofNat_nonneg _) hr.le]
  symm
  rw [Int.floor_eq_iff]
  have e : 120 * Real.sqrt ((m : Int) : ℝ) = Real.sqrt ((14400 * m : Nat) : ℝ) := by
    have h1 : ((14400 * m : Nat) : ℝ) = (120 : ℝ) ^ 2 * (m : ℝ) := by push_cast; ring
    rw [h1, Real.sqrt_mul (by positivity), Real.sqrt_sq (by norm_num)]
    simp
  rw [e]
  have hlo := Real.nat_sqrt_le_real_sqrt (a := 14400 * m)
  have hhi := Real.real_sqrt_lt_nat_sqrt_succ (a := 14400 * m)
  generalize Real.sqrt ((14400 * m : Nat) : ℝ) = x at hlo hhi
  generalize Nat.sqrt (14400 * m) = q at hlo hhi
  have h3 : ((q : Int) / r) * r ≤ q := Int.ediv_mul_le _ hr.ne'
  have h4 : (q : Int) < ((q : Int) / r + 1) * r := by
    have := Int.lt_ediv_add_one_mul_self (q : Int) hr
    linarith
  have h3' : (((q : Int) / r : Int) : ℝ) * (r : ℝ) ≤ (q : ℝ) := by exact_mod_cast h3
  have h4' : (q : ℝ) + 1 ≤ ((((q : Int) / r : Int) : ℝ) + 1) * (r : ℝ) := by
    have : (q : Int) + 1 ≤ ((q : Int) / r + 1) * r := by omega
    exact_mod_cast this
  constructor
  · rw [le_div_iff₀ hr']
    linarith
  · rw [div_lt_iff₀ hr']
    linarith

/-! ## Truncation of the angle in degrees -/

theorem isTruncOf_mono (t1 t2 : ℝ) (k1 k2 : Int) (h1 : IsTruncOf t1 k1) (h2 : IsTruncOf t2 k2)
    (hle : t1 ≤ t2) : k1 ≤ k2 := by
  rcases h1 with ⟨a1, b1, c1⟩ | ⟨a1, b1, c1⟩ <;> rcases h2 with ⟨a2, b2, c2⟩ | ⟨a2, b2, c2⟩
  · have key : (k1 : ℝ) < (k2 : ℝ) + 1 := by linarith
    have : k1 < k2 + 1 := by exact_mod_cast key
    omega
  · linarith
  · have e1 : (k1 : ℝ) < 1 := by linarith
    have e2 : (-1 : ℝ) < (k2 : ℝ) := by linarith
    have e1' : k1 < 1 := by exact_mod_cast e1
    have e2' : -1 < k2 := by exact_mod_cast e2
    omega
  · have key : (k1 : ℝ) < (k2 : ℝ) + 1 := by linarith
    have : k1 < k2 + 1 := by exact_mod_cast key
    omega

theorem isTruncOf_range (t : ℝ) (k : Int) (h : IsTruncOf t k) (hlo : -180 < t) (hhi : t ≤ 180) :
    -179 ≤ k ∧ k ≤ 180 := by
  have h1 : (-180 : ℝ) < (k : ℝ) := by
    rcases h with ⟨a, b, c⟩ | ⟨a, b, c⟩ <;> linarith
  have h2 : (k : ℝ) < 181 := by
    rcases h with ⟨a, b, c⟩ | ⟨a, b, c⟩ <;> linarith
  have h1' : (-180 : Int) < k := by exact_mod_cast h1
  have h2' : k < 181 := by exact_mod_cast h2
  omega

/-- The angle of the source in degrees, `180 * atan2(y, x) / π`, is in
`(-180, 180]`. -/
theorem angleDeg_range (z : ℂ) :
    -180 < 180 * Complex.arg z / Real.pi ∧ 180 * Complex.arg z / Real.pi ≤ 180 := by
  have hpi := Real.pi_pos
  have h1 := Complex.neg_pi_lt_arg z
  have h2 := Complex.arg_le_pi z
  constructor
  · rw [lt_div_iff₀ hpi]; linarith
  · rw [div_le_iff₀ hpi]; linarith

theorem atanDeg_range (atanDeg : Int → Int → Int) (y x : Int) (h : AtanDegSpec atanDeg y x) :
    -179 ≤ atanDeg y x ∧ atanDeg y x ≤ 180 :=
  isTruncOf_range _ _ h (angleDeg_range _).1 (angleDeg_range _).2

/-- For a truncated angle in `[-179, 180]` the clamp after `hue %= 360` does
nothing and the C++ remainder is the mathematical one. -/
theorem hue_continuous_eq (k : Int) (h1 : -179 ≤ k) (h2 : k ≤ 180) :
    MID 0 (Int.tmod (k + 180 + 180 + 30) 360) 360 = (k + 180 + 180 + 30) % 360 := by
  rw [MID_eq _ _ _ (by norm_num), Int.tmod_eq_emod (by omega) (by norm_num)]
  split_ifs <;> omega

theorem isTruncOf_unique (t : ℝ) (k1 k2 : Int) (h1 : IsTruncOf t k1) (h2 : IsTruncOf t k2) :
    k1 = k2 :=
  le_antisymm (isTruncOf_mono t t k1 k2 h1 h2 le_rfl) (isTruncOf_mono t t k2 k1 h2 h1 le_rfl)

/-- Straight up from the centre (`x = 0`, `y > 0`) the angle is 90 degrees. -/
theorem angleDeg_up (x y : Int) (hx : x = 0) (hy : 0 < y) :
    180 * Complex.arg ⟨(x : ℝ), (y : ℝ)⟩ / Real.pi = 90 := by
  have hy' : (0 : ℝ) < (y : ℝ) := by exact_mod_cast hy
  have h : Complex.arg ⟨(x : ℝ), (y : ℝ)⟩ = Real.pi / 2 := by
    rw [Complex.arg_eq_pi_div_two_iff]
    exact ⟨by simp [hx], hy'⟩
  rw [h]
  field_simp
  ring

/-- To the right of the centre (`x > 0`, `y = 0`) the angle is 0 degrees. -/
theorem angleDeg_right (x y : Int) (hx : 0 < x) (hy : y = 0) :
    180 * Complex.arg ⟨(x : ℝ), (y : ℝ)⟩ / Real.pi = 0 := by
  have hx' : (0 : ℝ) ≤ (x : ℝ) := by exact_mod_cast hx.le
  have e : (⟨(x : ℝ), (y : ℝ)⟩ : ℂ) = ((x : ℝ) : ℂ) := by
    apply Complex.ext <;> simp [hy]
  rw [e, Complex.arg_ofReal_of_nonneg hx']
  simp

/-- The angle of the offset `(100, 1)` is between 0.5 and 1 degree. -/
theorem angleDeg_100_1 (x y : Int) (hx : x = 100) (hy : y = 1) :
    1 / 2 ≤ 180 * Complex.arg ⟨(x : ℝ), (y : ℝ)⟩ / Real.pi ∧
    180 * Complex.arg ⟨(x : ℝ), (y : ℝ)⟩ / Real.pi < 1 := by
  subst hx hy
  have hpi := Real.pi_gt_three
  have hpi2 := Real.pi_lt_d2
  have habs : |Complex.arg ⟨((100 : Int) : ℝ), ((1 : Int) : ℝ)⟩| < Real.pi / 2 :=
    Complex.abs_arg_lt_pi_div_two_iff.mpr (Or.inl (by simp))
  have hnn : 0 ≤ Complex.arg ⟨((100 : Int) : ℝ), ((1 : Int) : ℝ)⟩ :=
    Complex.arg_nonneg_iff.mpr (by simp)
  have htan : Real.tan (Complex.arg ⟨((100 : Int) : ℝ), ((1 : Int) : ℝ)⟩) = 1 / 100 := by
    rw [Complex.tan_arg]; simp
  generalize Complex.arg ⟨((100 : Int) : ℝ), ((1 : Int) : ℝ)⟩ = θ at habs hnn htan
  rw [abs_lt] at habs
  have hne : θ ≠ 0 := by
    rintro rfl
    simp at htan
  have hpos : 0 < θ := lt_of_le_of_ne hnn (Ne.symm hne)
  have hup : θ < 1 / 100 := by
    have := Real.lt_tan hpos habs.2
    rwa [htan] at this
  have hcos : 0 < Real.cos θ := Real.cos_pos_of_mem_Ioo ⟨habs.1, habs.2⟩
  have hsin : Real.sin θ < θ := Real.sin_lt hpos
  have hcos2 : 1 - θ ^ 2 / 2 ≤ Real.cos θ := Real.one_sub_sq_div_two_le_cos
  have hrel : Real.cos θ = 100 * Real.sin θ := by
    rw [Real.tan_eq_sin_div_cos, div_eq_iff hcos.ne'] at htan
    linarith
  have hlow : (99 / 10000 : ℝ) < θ := by nlinarith
  have hpi0 : (0 : ℝ) < Real.pi := by linarith
  constructor
  · rw [le_div_iff₀ hpi0]; norm_num at hpi2; linarith
  · rw [div_lt_iff₀ hpi0]; linarith

/-- The colour branch of `pickColor` in continuous mode, for a library value
in `[-179, 180]` and a squared distance that fits in an `int`. -/
theorem pickColor_continuous (atanDeg : Int → Int → Int) (cw : ColorWheel) (pos : Point)
    (hd : cw.m_discrete = false) (hr : 0 < cw.m_wheelRadius)
    (hno : offsetU cw pos ^ 2 + offsetV cw pos ^ 2 < 2 ^ 31)
    (hin : offsetU cw pos ^ 2 + offsetV cw pos ^ 2 < cw.m_wheelRadius ^ 2)
    (hk : -179 ≤ atanDeg (-offsetV cw pos) (offsetU cw pos) ∧
      atanDeg (-offsetV cw pos) (offsetU cw pos) ≤ 180) :
    pickColor atanDeg cw pos =
      Color.hsv ((atanDeg (-offsetV cw pos) (offsetU cw pos) + 180 + 180 + 30) % 360)
        (MID 0 (satTrunc (offsetU cw pos ^ 2 + offsetV cw pos ^ 2) cw.m_wheelRadius) 100) 100 := by
  rw [pickColor_inside atanDeg cw pos (sqrtLt_inside cw pos hr hno hin), hd]
  simp only [Bool.false_eq_true, if_false]
  rw [wrapInt_neg_eq _ _ hno, sqDist_eq _ _ hno, hue_continuous_eq _ hk.1 hk.2]

/-! ## Claims on the hue of continuous mode -/

/-- C3 (refuted as stated): at radius 200 and offset `(u, v) = (100, -1)` the
angle `180 * atan2(1, 100) / π` is about 0.57 degrees; the conversion `int(...)`
of the source gives 0 and the hue 30, while rounding to nearest gives 1 and
the hue 31 of the claim.  Moreover at radius 46342 the pixel at offset
`(46341, 0)`, strictly inside the disk, gets no hue at all: `u*u` overflows
and `pickColor` returns the mask. -/
theorem hue_round_counterexample :
    IsTruncOf (180 * Complex.arg ⟨((100 : Int) : ℝ), ((1 : Int) : ℝ)⟩ / Real.pi) 0 ∧
    (∀ atanDeg : Int → Int → Int, AtanDegSpec atanDeg 1 100 →
      pickColor atanDeg (centredWheel 200 false) ⟨100, -1⟩ = Color.hsv 30 60 100) ∧
    (round (180 * Complex.arg ⟨((100 : Int) : ℝ), ((1 : Int) : ℝ)⟩ / Real.pi)
      + 180 + 180 + 30) % 360 = 31 ∧
    pickColor (fun _ _ => 0) (centredWheel 46342 false) ⟨46341, 0⟩ = Color.mask := by
  obtain ⟨hlo, hhi⟩ := angleDeg_100_1 100 1 rfl rfl
  have htr : IsTruncOf (180 * Complex.arg ⟨((100 : Int) : ℝ), ((1 : Int) : ℝ)⟩ / Real.pi) 0 := by
    left
    refine ⟨by linarith, by push_cast; linarith, by push_cast; linarith⟩
  refine ⟨htr, ?_, ?_, pickColor_overflow_inside _ false⟩
  · intro atanDeg hspec
    have hk : atanDeg 1 100 = 0 := isTruncOf_unique _ _ _ hspec htr
    have hn : sqDist 100 (-1) = 10001 := by decide
    have hw : wrapInt (- -1) = 1 := by decide
    have hs : satTrunc 10001 200 = (60 : Nat) :=
      satTrunc_eval _ _ 12000 60 (by decide) (by decide) (by decide) (by decide) (by decide)
        (by decide)
    rw [pickColor_centred _ _ _ _ _ (by decide) (by decide) (by decide), hn, hs, hw, hk]
    decide
  · have hround : round (180 * Complex.arg ⟨((100 : Int) : ℝ), ((1 : Int) : ℝ)⟩ / Real.pi) = 1 := by
      rw [round_eq, Int.floor_eq_iff]
      constructor
      · push_cast; linarith
      · push_cast; linarith
    rw [hround]
    decide

/-- C3 (amended): for every pixel strictly inside the disk (radius `> 0`) with
`u^2 + v^2 < 2^31` (no `int` overflow in `u*u + v*v`) and discrete mode off,
the hue returned by `pickColor` is `(k + 180 + 180 + 30) mod 360` where `k` is
`180 * a / π` rounded toward zero (the C++ conversion to `int`) and
`a = atan2(-v, u)`. -/
theorem pickColor_hue_truncated (atanDeg : Int → Int → Int) (cw : ColorWheel) (pos : Point)
    (hd : cw.m_discrete = false) (hr : 0 < cw.m_wheelRadius)
    (hno : offsetU cw pos ^ 2 + offsetV cw pos ^ 2 < 2 ^ 31)
    (hin : offsetU cw pos ^ 2 + offsetV cw pos ^ 2 < cw.m_wheelRadius ^ 2)
    (hspec : AtanDegSpec atanDeg (-offsetV cw pos) (offsetU cw pos)) :
    ∃ k s : Int,
      IsTruncOf (180 * Complex.arg ⟨(offsetU cw pos : ℝ), ((-offsetV cw pos : Int) : ℝ)⟩ /
        Real.pi) k ∧
      pickColor atanDeg cw pos = Color.hsv ((k + 180 + 180 + 30) % 360) s 100 :=
  ⟨atanDeg (-offsetV cw pos) (offsetU cw pos), _, hspec,
    pickColor_continuous atanDeg cw pos hd hr hno hin (atanDeg_range atanDeg _ _ hspec)⟩

/-- C3 (amended) at radius 200 and offset `(100, -1)`, where the truncated
angle is 0. -/
theorem pickColor_hue_truncated_witness :
    ∃ k s : Int,
      IsTruncOf (180 * Complex.arg ⟨(offsetU (centredWheel 200 false) ⟨100, -1⟩ : ℝ),
        ((-offsetV (centredWheel 200 false) ⟨100, -1⟩ : Int) : ℝ)⟩ / Real.pi) k ∧
      pickColor (fun _ _ => 0) (centredWheel 200 false) ⟨100, -1⟩ =
        Color.hsv ((k + 180 + 180 + 30) % 360) s 100 :=
  pickColor_hue_truncated (fun _ _ => 0) (centredWheel 200 false) ⟨100, -1⟩ rfl
    (by decide) (by decide) (by decide)
    (Or.inl
      ⟨le_trans (by norm_num) (angleDeg_100_1 _ _ (by decide) (by decide)).1,
        le_trans (by norm_num) (angleDeg_100_1 _ _ (by decide) (by decide)).1,
        lt_of_lt_of_le (angleDeg_100_1 _ _ (by decide) (by decide)).2 (by norm_num)⟩)

/-- C7 (refuted as stated): with radius 100 the pixel at offset `(0, -100)` is
on the circle, so `pickColor` returns the mask and no hue, whatever the
library value of the angle. -/
theorem twelve_oclock_counterexample :
    pickColor (fun _ _ => 90) (centredWheel 100 false) ⟨0, -100⟩ = Color.mask ∧
    ¬ ∃ (atanDeg : Int → Int → Int) (s v : Int),
      pickColor atanDeg (centredWheel 100 false) ⟨0, -100⟩ = Color.hsv 120 s v := by
  have h : ∀ atanDeg : Int → Int → Int,
      pickColor atanDeg (centredWheel 100 false) ⟨0, -100⟩ = Color.mask := by
    intro atanDeg
    exact pickColor_centred_mask atanDeg 100 false 0 (-100) (by decide) (by decide) (by decide)
  refine ⟨h _, ?_⟩
  rintro ⟨atanDeg, s, v, hc⟩
  rw [h atanDeg] at hc
  cases hc

/-- C7 (amended): with radius 100 and discrete mode off, every pixel of the
12-o'clock ray strictly inside the disk, at offset `(0, -k)` with
`0 < k < 100`, has hue 120 (`a = π/2`, `90 + 180 + 180 + 30 = 480`,
`480 mod 360 = 120`). -/
theorem twelve_oclock_hue (atanDeg : Int → Int → Int) (k : Int) (hk0 : 0 < k) (hk : k < 100)
    (hspec : AtanDegSpec atanDeg k 0) :
    ∃ s : Int, pickColor atanDeg (centredWheel 100 false) ⟨0, -k⟩ = Color.hsv 120 s 100 := by
  have h90 : IsTruncOf (180 * Complex.arg ⟨((0 : Int) : ℝ), (k : ℝ)⟩ / Real.pi) 90 := by
    rw [angleDeg_up 0 k rfl hk0]
    left
    norm_num
  have hval : atanDeg k 0 = 90 := isTruncOf_unique _ _ _ hspec h90
  have hno : (0 : Int) ^ 2 + (-k) ^ 2 < 2 ^ 31 := by nlinarith
  have hw : wrapInt (- -k) = k := by
    rw [neg_neg]
    exact wrapInt_of_range _ (by omega) (by omega)
  have hin : sqrtLt (sqDist 0 (-k)) 100 = true := by
    rw [sqDist_eq _ _ hno]
    exact sqrtLt_of_sq_lt _ _ (by positivity) (by decide) (by nlinarith)
  rw [pickColor_centred _ _ _ _ _ (by decide) (wrapInt_of_range _ (by omega) (by omega)) hin,
    hw, hval]
  simp only [Bool.false_eq_true, if_false]
  exact ⟨_, by congr 1⟩

/-- C7 (amended) at the pixel just inside the circle, offset `(0, -99)`. -/
theorem twelve_oclock_hue_witness :
    ∃ s : Int, pickColor (fun _ _ => 90) (centredWheel 100 false) ⟨0, -99⟩ =
      Color.hsv 120 s 100 :=
  twelve_oclock_hue (fun _ _ => 90) 99 (by decide) (by decide)
    (by
      show IsTruncOf (180 * Complex.arg ⟨((0 : Int) : ℝ), ((99 : Int) : ℝ)⟩ / Real.pi) 90
      rw [angleDeg_up 0 99 rfl (by decide)]
      left
      norm_num)

/-- C8 (refuted as stated): at radius 46342 the pixel at offset `(46341, 0)`
is strictly inside the disk and its angle is 0, but `u*u` overflows the `int`
range and `pickColor` returns the mask: the pixel has no hue to compare, with
itself or with any other pixel. -/
theorem hue_monotone_overflow_counterexample :
    0 < (centredWheel 46342 false).m_wheelRadius ∧
    offsetU (centredWheel 46342 false) ⟨46341, 0⟩ ^ 2 +
        offsetV (centredWheel 46342 false) ⟨46341, 0⟩ ^ 2 <
      (centredWheel 46342 false).m_wheelRadius ^ 2 ∧
    AtanDegSpec (fun _ _ => 0) (-offsetV (centredWheel 46342 false) ⟨46341, 0⟩)
      (offsetU (centredWheel 46342 false) ⟨46341, 0⟩) ∧
    ¬ ∃ h s v : Int,
      pickColor (fun _ _ => 0) (centredWheel 46342 false) ⟨46341, 0⟩ = Color.hsv h s v := by
  refine ⟨by decide, by decide, ?_, ?_⟩
  · show IsTruncOf _ _
    rw [angleDeg_right _ _ (by decide) (by decide)]
    left
    norm_num
  · rintro ⟨h, s, v, hc⟩
    rw [pickColor_overflow_inside] at hc
    cases hc

/-- C8 (amended): with discrete mode off, the hue does not decrease (modulo
360, counted from 211) as the angle grows: for two pixels strictly inside the
disk with `u^2 + v^2 < 2^31` (no `int` overflow in `u*u + v*v`) whose angles
`a = atan2(-v, u)` satisfy `a1 <= a2`, the hue before the reduction modulo 360
is non-decreasing, and the returned hues satisfy
`(hue1 - 211) mod 360 <= (hue2 - 211) mod 360`. -/
theorem pickColor_hue_monotone (atanDeg : Int → Int → Int) (cw : ColorWheel) (p1 p2 : Point)
    (hd : cw.m_discrete = false) (hr : 0 < cw.m_wheelRadius)
    (hno1 : offsetU cw p1 ^ 2 + offsetV cw p1 ^ 2 < 2 ^ 31)
    (hno2 : offsetU cw p2 ^ 2 + offsetV cw p2 ^ 2 < 2 ^ 31)
    (hin1 : offsetU cw p1 ^ 2 + offsetV cw p1 ^ 2 < cw.m_wheelRadius ^ 2)
    (hin2 : offsetU cw p2 ^ 2 + offsetV cw p2 ^ 2 < cw.m_wheelRadius ^ 2)
    (hs1 : AtanDegSpec atanDeg (-offsetV cw p1) (offsetU cw p1))
    (hs2 : AtanDegSpec atanDeg (-offsetV cw p2) (offsetU cw p2))
    (hle : Complex.arg ⟨(offsetU cw p1 : ℝ), ((-offsetV cw p1 : Int) : ℝ)⟩ ≤
      Complex.arg ⟨(offsetU cw p2 : ℝ), ((-offsetV cw p2 : Int) : ℝ)⟩) :
    atanDeg (-offsetV cw p1) (offsetU cw p1) + 180 + 180 + 30 ≤
      atanDeg (-offsetV cw p2) (offsetU cw p2) + 180 + 180 + 30 ∧
    ∃ h1 s1 h2 s2 : Int,
      pickColor atanDeg cw p1 = Color.hsv h1 s1 100 ∧
      pickColor atanDeg cw p2 = Color.hsv h2 s2 100 ∧
      (h1 - 211) % 360 ≤ (h2 - 211) % 360 := by
  have r1 := atanDeg_range atanDeg _ _ hs1
  have r2 := atanDeg_range atanDeg _ _ hs2
  have hmono : atanDeg (-offsetV cw p1) (offsetU cw p1) ≤
      atanDeg (-offsetV cw p2) (offsetU cw p2) := by
    apply isTruncOf_mono _ _ _ _ hs1 hs2
    have hpi := Real.pi_pos
    apply div_le_div_of_nonneg_right _ hpi.le
    linarith
  refine ⟨by omega, _, _, _, _, pickColor_continuous atanDeg cw p1 hd hr hno1 hin1 r1,
    pickColor_continuous atanDeg cw p2 hd hr hno2 hin2 r2, ?_⟩
  omega

/-- C8 (amended) at radius 10, for the pixels at offsets `(1, 0)` (angle 0)
and `(0, -1)` (angle `π/2`): hues 30 and 120. -/
theorem pickColor_hue_monotone_witness :
    (fun (y _ : Int) => if y = 0 then (0 : Int) else 90) (-offsetV (centredWheel 10 false) ⟨1, 0⟩)
        (offsetU (centredWheel 10 false) ⟨1, 0⟩) + 180 + 180 + 30 ≤
      (fun (y _ : Int) => if y = 0 then (0 : Int) else 90)
        (-offsetV (centredWheel 10 false) ⟨0, -1⟩)
        (offsetU (centredWheel 10 false) ⟨0, -1⟩) + 180 + 180 + 30 ∧
    ∃ h1 s1 h2 s2 : Int,
      pickColor (fun y _ => if y = 0 then 0 else 90) (centredWheel 10 false) ⟨1, 0⟩ =
        Color.hsv h1 s1 100 ∧
      pickColor (fun y _ => if y = 0 then 0 else 90) (centredWheel 10 false) ⟨0, -1⟩ =
        Color.hsv h2 s2 100 ∧
      (h1 - 211) % 360 ≤ (h2 - 211) % 360 := by
  have e1 : 180 * Complex.arg ⟨(offsetU (centredWheel 10 false) ⟨1, 0⟩ : ℝ),
      ((-offsetV (centredWheel 10 false) ⟨1, 0⟩ : Int) : ℝ)⟩ / Real.pi = 0 :=
    angleDeg_right _ _ (by decide) (by decide)
  have e2 : 180 * Complex.arg ⟨(offsetU (centredWheel 10 false) ⟨0, -1⟩ : ℝ),
      ((-offsetV (centredWheel 10 false) ⟨0, -1⟩ : Int) : ℝ)⟩ / Real.pi = 90 :=
    angleDeg_up _ _ (by decide) (by decide)
  have hpi := Real.pi_pos
  refine pickColor_hue_monotone (fun y _ => if y = 0 then 0 else 90) (centredWheel 10 false)
    ⟨1, 0⟩ ⟨0, -1⟩ rfl (by decide) (by decide) (by decide) (by decide) (by decide) ?_ ?_ ?_
  · show IsTruncOf _ _
    rw [e1]
    left
    have : (fun (y _ : Int) => if y = 0 then (0 : Int) else 90)
        (-offsetV (centredWheel 10 false) ⟨1, 0⟩) (offsetU (centredWheel 10 false) ⟨1, 0⟩) = 0 := by
      decide
    rw [this]
    norm_num
  · show IsTruncOf _ _
    rw [e2]
    left
    have : (fun (y _ : Int) => if y = 0 then (0 : Int) else 90)
        (-offsetV (centredWheel 10 false) ⟨0, -1⟩) (offsetU (centredWheel 10 false) ⟨0, -1⟩) =
          90 := by
      decide
    rw [this]
    norm_num
  · have a1 : Complex.arg ⟨(offsetU (centredWheel 10 false) ⟨1, 0⟩ : ℝ),
        ((-offsetV (centredWheel 10 false) ⟨1, 0⟩ : Int) : ℝ)⟩ = 0 := by
      have := e1
      rw [div_eq_iff hpi.ne'] at this
      linarith
    have a2 : Complex.arg ⟨(offsetU (centredWheel 10 false) ⟨0, -1⟩ : ℝ),
        ((-offsetV (centredWheel 10 false) ⟨0, -1⟩ : Int) : ℝ)⟩ = Real.pi / 2 := by
      have := e2
      rw [div_eq_iff hpi.ne'] at this
      linarith
    rw [a1, a2]
    linarith

/-! ## Claims on the saturation of continuous mode -/

/-- C4 (refuted as stated): at radius 50 and offset `(4, 0)` the source
computes `int(120 * 4 / 50) = int(9.6) = 9`, while rounding to nearest gives
`min(100, round(9.6)) = 10`.  Moreover at radius 46342 the pixel at offset
`(46341, 0)`, strictly inside the disk, gets no saturation at all: `u*u`
overflows and `pickColor` returns the mask. -/
theorem sat_round_counterexample :
    pickColor (fun _ _ => 0) (centredWheel 50 false) ⟨4, 0⟩ = Color.hsv 30 9 100 ∧
    min 100 (round (120 * Real.sqrt (((4 : Int) : ℝ) ^ 2 + ((0 : Int) : ℝ) ^ 2) /
      ((50 : Int) : ℝ))) = 10 ∧
    pickColor (fun _ _ => 0) (centredWheel 46342 false) ⟨46341, 0⟩ = Color.mask := by
  refine ⟨?_, ?_, pickColor_overflow_inside _ false⟩
  · have hn : sqDist 4 0 = 16 := by decide
    have hs : satTrunc 16 50 = (9 : Nat) :=
      satTrunc_eval _ _ 480 9 (by decide) (by decide) (by decide) (by decide) (by decide)
        (by decide)
    rw [pickColor_centred _ _ _ _ _ (by decide) (by decide) (by decide), hn, hs]
    decide
  · have e : Real.sqrt (((4 : Int) : ℝ) ^ 2 + ((0 : Int) : ℝ) ^ 2) = 4 := by
      have : ((4 : Int) : ℝ) ^ 2 + ((0 : Int) : ℝ) ^ 2 = (4 : ℝ) ^ 2 := by push_cast; ring
      rw [this, Real.sqrt_sq (by norm_num)]
    have hround : round (120 * (4 : ℝ) / ((50 : Int) : ℝ)) = 10 := by
      rw [round_eq, Int.floor_eq_iff]
      constructor <;> (push_cast; norm_num)
    rw [e, hround]
    decide

/-- C4 (amended): for radius `> 0` and a pixel strictly inside the disk with
`u^2 + v^2 < 2^31` (no `int` overflow in `u*u + v*v`) and discrete mode off,
the saturation returned by `pickColor` is `min(100, floor(120 * d / radius))`
with `d = sqrt(u^2 + v^2)`: the conversion to `int` truncates.  For radius 50
and `(u, v) = (49, 0)` this is `floor(117.6) = 117`, clamped to 100. -/
theorem pickColor_sat_truncated (atanDeg : Int → Int → Int) (cw : ColorWheel) (pos : Point)
    (hd : cw.m_discrete = false) (hr : 0 < cw.m_wheelRadius)
    (hno : offsetU cw pos ^ 2 + offsetV cw pos ^ 2 < 2 ^ 31)
    (hin : offsetU cw pos ^ 2 + offsetV cw pos ^ 2 < cw.m_wheelRadius ^ 2) :
    ∃ h s : Int, pickColor atanDeg cw pos = Color.hsv h s 100 ∧
      s = min 100 ⌊120 * Real.sqrt ((offsetU cw pos : ℝ) ^ 2 + (offsetV cw pos : ℝ) ^ 2) /
        (cw.m_wheelRadius : ℝ)⌋ := by
  rw [pickColor_inside atanDeg cw pos (sqrtLt_inside cw pos hr hno hin), hd]
  simp only [Bool.false_eq_true, if_false]
  refine ⟨_, _, rfl, ?_⟩
  rw [sqDist_eq _ _ hno]
  have hn : 0 ≤ offsetU cw pos ^ 2 + offsetV cw pos ^ 2 := by positivity
  have hfl := satTrunc_eq_floor _ _ hn hr
  have hcast : ((offsetU cw pos ^ 2 + offsetV cw pos ^ 2 : Int) : ℝ) =
      (offsetU cw pos : ℝ) ^ 2 + (offsetV cw pos : ℝ) ^ 2 := by
    push_cast; ring
  rw [hcast] at hfl
  rw [← hfl]
  have h0 : 0 ≤ satTrunc (offsetU cw pos ^ 2 + offsetV cw pos ^ 2) cw.m_wheelRadius := by
    unfold satTrunc
    exact Int.tdiv_nonneg (Int.ofNat_nonneg _) hr.le
  rw [MID_eq _ _ _ (by norm_num)]
  split_ifs <;> omega

/-- C4 (amended) at the inputs of the claim, radius 50 and offset `(49, 0)`:
the saturation is 100. -/
theorem pickColor_sat_truncated_witness :
    pickColor (fun _ _ => 0) (centredWheel 50 false) ⟨49, 0⟩ = Color.hsv 30 100 100 ∧
    ∃ h s : Int, pickColor (fun _ _ => 0) (centredWheel 50 false) ⟨49, 0⟩ = Color.hsv h s 100 ∧
      s = min 100 ⌊120 * Real.sqrt ((offsetU (centredWheel 50 false) ⟨49, 0⟩ : ℝ) ^ 2 +
        (offsetV (centredWheel 50 false) ⟨49, 0⟩ : ℝ) ^ 2) /
        ((centredWheel 50 false).m_wheelRadius : ℝ)⌋ := by
  constructor
  · have hn : sqDist 49 0 = 2401 := by decide
    have hs : satTrunc 2401 50 = (117 : Nat) :=
      satTrunc_eval _ _ 5880 117 (by decide) (by decide) (by decide) (by decide) (by decide)
        (by decide)
    rw [pickColor_centred _ _ _ _ _ (by decide) (by decide) (by decide), hn, hs]
    decide
  · exact pickColor_sat_truncated (fun _ _ => 0) (centredWheel 50 false) ⟨49, 0⟩ rfl
      (by decide) (by decide) (by decide)

/-- C10 at radius 100 and offset `(30, -30)` with truncated angle 45 degrees:
continuous mode gives `(75, 50, 100)` and discrete mode `(90, 40, 100)`;
neither 75 nor 50 is left unchanged by its quantizer. -/
theorem pickColor_discrete_eq_quantized_witness :
    pickColor (fun _ _ => 45) ((centredWheel 100 false).withDiscrete false) ⟨30, -30⟩ =
      Color.hsv 75 50 100 ∧
    pickColor (fun _ _ => 45) ((centredWheel 100 false).withDiscrete true) ⟨30, -30⟩ =
      Color.hsv (Int.tmod (Int.tdiv (75 + 15) 30 * 30) 360) (Int.tdiv 50 20 * 20) 100 ∧
    Int.tmod (Int.tdiv (75 + 15) 30 * 30) 360 = 90 ∧ Int.tdiv 50 20 * 20 = 40 := by
  have hn : sqDist 30 (-30) = 1800 := by decide
  have hs : satTrunc 1800 100 = (50 : Nat) :=
    satTrunc_eval _ _ 5091 50 (by decide) (by decide) (by decide) (by decide) (by decide)
      (by decide)
  have hc : pickColor (fun _ _ => 45) ((centredWheel 100 false).withDiscrete false) ⟨30, -30⟩ =
      Color.hsv 75 50 100 := by
    show pickColor (fun _ _ => 45) (centredWheel 100 false) ⟨30, -30⟩ = _
    rw [pickColor_centred _ _ _ _ _ (by decide) (by decide) (by decide), hn, hs]
    decide
  exact ⟨hc,
    ((pickColor_discrete_eq_quantized (fun _ _ => 45) (centredWheel 100 false) ⟨30, -30⟩).2
      75 50 100 hc).2, by decide, by decide⟩

end app
